import Mathlib

/-!
Shallow embedding of the URL-shortener implementation (`url.py`) and proofs
of the specification claims.  Python dictionaries are modelled as association
lists with insert-or-overwrite (`upsert`), Python truthiness on optional
strings / integers is modelled explicitly, the clock is an explicit `now`
parameter, and the LRU cache's doubly linked recency list is modelled as a
list of key-value pairs ordered from most- to least-recently used.
-/

namespace UrlShort

/-- Lookup in an association list (models Python `dict.get`). -/
def lookupS {α : Type} (k : String) : List (String × α) → Option α
  | [] => none
  | p :: rest => if p.1 = k then some p.2 else lookupS k rest

/-- Insert-or-overwrite into an association list (models Python `d[k] = v`). -/
def upsert {α : Type} (k : String) (v : α) (l : List (String × α)) : List (String × α) :=
  (k, v) :: l.filter (fun p => p.1 ≠ k)

/-- Python truthiness for an optional string: `None` and `""` are falsy;
a truthy value is carried along. -/
def truthyS : Option String → Option String
  | none => none
  | some s => if s = "" then none else some s

/-- Python truthiness of an optional string as a `Bool`. -/
def pyTruthy (o : Option String) : Bool :=
  (truthyS o).isSome

/-- The 62-character alphabet `self.charset` from the source. -/
def charsetL : List Char :=
  "0123456789abcdefghijklmnopqrstuvwxyzABCDEFGHIJKLMNOPQRSTUVWXYZ".data

/-- `self.charset[r]` for a digit value `r`. -/
def digitChar (r : Nat) : Char := charsetL.getD r '0'

/-- The digit value of a character, `charset.index(c)`. -/
def digitVal (c : Char) : Nat := charsetL.indexOf c

/-- The loop body of `_encode_base62`: repeatedly `divmod` by 62, emitting
digits least-significant first, then reverse — equivalently, recurse on the
quotient and append the digit of the remainder.  The first argument is fuel
bounding the recursion; `encAux n n` computes the digits of `n`. -/
def encAux : Nat → Nat → List Char
  | _, 0 => []
  | 0, _ + 1 => []
  | f + 1, n + 1 => encAux f ((n + 1) / 62) ++ [digitChar ((n + 1) % 62)]

/-- `URLShortener._encode_base62`. -/
def encodeBase62 (num : Nat) : String :=
  if num = 0 then ⟨[digitChar 0]⟩ else ⟨encAux num num⟩

/-- `str.rjust(7, '0')` as used in `_generate_code`. -/
def rjustZero (s : String) : String :=
  ⟨List.leftpad 7 '0' s.data⟩

/-- The code attempted for a given sequence number. -/
def mkCode (n : Nat) : String := rjustZero (encodeBase62 n)

/-- Base-62 decoding of a digit string (for injectivity proofs). -/
def decChars (l : List Char) : Nat :=
  l.foldl (fun acc c => acc * 62 + digitVal c) 0

/-- Python `url.split('/')` on a character list. -/
def splitChar (sep : Char) : List Char → List (List Char)
  | [] => [[]]
  | c :: rest =>
    let r := splitChar sep rest
    if c = sep then [] :: r
    else
      match r with
      | h :: t => (c :: h) :: t
      | [] => [[c]]

/-- Python `str.startswith`. -/
def startsWithL : List Char → List Char → Bool
  | [], _ => true
  | _ :: _, [] => false
  | p :: ps, c :: cs => (p == c) && startsWithL ps cs

/-- `URLShortener._is_valid_url`. -/
def is_valid_url (url : String) : Bool :=
  let l := url.data
  if 2048 < l.length then false
  else if !(startsWithL "http://".data l || startsWithL "https://".data l) then false
  else
    let parts := splitChar '/' l
    if parts.length < 3 then false
    else
      let domain := parts.getD 2 []
      if !(domain.contains '.') then false
      else true

/-- `URLShortener._is_valid_code`: exactly 7 characters, all from the alphabet. -/
def is_valid_code (code : String) : Bool :=
  if code.data.length ≠ 7 then false
  else code.data.all (fun c => charsetL.contains c)

/-! ## LRUCache -/

/-- The LRU cache state: capacity plus the recency list of key-value pairs,
most-recently-used first.  This list models the doubly linked node list of
the source together with the key-to-node dictionary (whose key set always
equals the list's key set). -/
structure LRUCache where
  capacity : Nat
  items : List (String × String)
deriving Repr, DecidableEq

namespace LRUCache

/-- Removing the node of key `k` from the recency list. -/
def eraseKey (k : String) (l : List (String × String)) : List (String × String) :=
  l.filter (fun p => p.1 ≠ k)

/-- `LRUCache.get`: on a hit, move the node to the front and return its value;
on a miss, return `None` with no mutation. -/
def get (k : String) (c : LRUCache) : Option String × LRUCache :=
  match c.items.find? (fun p => p.1 = k) with
  | some p => (some p.2, { c with items := (k, p.2) :: eraseKey k c.items })
  | none => (none, c)

/-- `LRUCache.put`: remove any old node for the key, insert the new node at
the front, and if the size now exceeds the capacity evict the node before the
tail (the last element of the recency list). -/
def put (k v : String) (c : LRUCache) : LRUCache :=
  let items := (k, v) :: eraseKey k c.items
  if c.capacity < items.length then { c with items := items.dropLast }
  else { c with items := items }

end LRUCache

/-! ## URLDatabase -/

/-- The per-code statistics dictionary stored by `URLDatabase.store`. -/
structure URLStats where
  created_at : Nat
  expires_at : Option Nat
  visit_count : Nat
deriving Repr, DecidableEq

/-- `URLDatabase`: the two inverse maps, the stats table and the counter. -/
structure URLDatabase where
  url_to_code : List (String × String)
  code_to_url : List (String × String)
  stats : List (String × URLStats)
  counter : Nat
deriving Repr, DecidableEq

namespace URLDatabase

/-- `URLDatabase.store`: overwrite both direction maps and reset the stats
record; `created_at` is the clock reading `now`. -/
def store (now : Nat) (short_code long_url : String) (expiry : Option Nat)
    (db : URLDatabase) : URLDatabase :=
  { db with
    url_to_code := upsert long_url short_code db.url_to_code
    code_to_url := upsert short_code long_url db.code_to_url
    stats := upsert short_code ⟨now, expiry, 0⟩ db.stats }

/-- `URLDatabase.get_url`. -/
def get_url (db : URLDatabase) (short_code : String) : Option String :=
  lookupS short_code db.code_to_url

/-- `URLDatabase.get_code`. -/
def get_code (db : URLDatabase) (long_url : String) : Option String :=
  lookupS long_url db.url_to_code

/-- `URLDatabase.increment_visits`: a no-op when the code has no stats record. -/
def increment_visits (short_code : String) (db : URLDatabase) : URLDatabase :=
  match lookupS short_code db.stats with
  | some st =>
      { db with stats := upsert short_code { st with visit_count := st.visit_count + 1 } db.stats }
  | none => db

/-- `URLDatabase.get_stats`. -/
def get_stats (db : URLDatabase) (short_code : String) : Option URLStats :=
  lookupS short_code db.stats

end URLDatabase

/-! ## URLShortener -/

/-- `URLShortener` holds the database and the cache. -/
structure URLShortener where
  db : URLDatabase
  cache : LRUCache
deriving Repr, DecidableEq

namespace URLShortener

/-- A freshly constructed `URLShortener(cache_size)`. -/
def init (cache_size : Nat) : URLShortener :=
  ⟨⟨[], [], [], 0⟩, ⟨cache_size, []⟩⟩

/-- The body of the `while True` loop of `_generate_code`: increment the
counter, base-62-encode it right-justified to width 7, and retry while the
code is already present (truthy) in the store.  Fuel bounds the retries; the
top-level `generate_code` supplies provably sufficient fuel, so the
out-of-fuel branch is never reached. -/
def genAux : Nat → URLDatabase → String × URLDatabase
  | 0, db => ("", db)
  | fuel + 1, db =>
    let db1 := { db with counter := db.counter + 1 }
    let code := rjustZero (encodeBase62 db1.counter)
    if pyTruthy (db1.get_url code) then genAux fuel db1 else (code, db1)

/-- The sequence numbers drawn by the successive attempts of `genAux`. -/
def genNums : Nat → URLDatabase → List Nat
  | 0, _ => []
  | fuel + 1, db =>
    let db1 := { db with counter := db.counter + 1 }
    let code := rjustZero (encodeBase62 db1.counter)
    if pyTruthy (db1.get_url code) then db1.counter :: genNums fuel db1 else [db1.counter]

/-- `URLShortener._generate_code` (the unbounded loop, run with fuel that is
proved sufficient by the pigeonhole argument `generate_code_spec`). -/
def generate_code (db : URLDatabase) : String × URLDatabase :=
  genAux (db.code_to_url.length + 1) db

/-- The tail of `create_short_url` after a short code has been settled:
compute the expiry timestamp (`expiry_days` is subject to integer truthiness,
so `0` behaves like `None`), store the record and write through to the cache. -/
def finalize (now : Nat) (s : URLShortener) (short_code long_url : String)
    (expiry_days : Option Nat) : (Bool × String) × URLShortener :=
  let expiry : Option Nat :=
    match expiry_days with
    | some d => if d = 0 then none else some (now + d * 24 * 60 * 60)
    | none => none
  let db1 := s.db.store now short_code long_url expiry
  let cache1 := LRUCache.put short_code long_url s.cache
  ((true, short_code), ⟨db1, cache1⟩)

/-- `URLShortener.create_short_url`.  The clock reads inside the call are
modelled by the single parameter `now`. -/
def create_short_url (now : Nat) (s : URLShortener) (long_url : String)
    (custom_code : Option String) (expiry_days : Option Nat) :
    (Bool × String) × URLShortener :=
  if !(is_valid_url long_url) then ((false, "Invalid URL format"), s)
  else
    match truthyS (s.db.get_code long_url) with
    | some existing_code => ((true, existing_code), s)
    | none =>
      match truthyS custom_code with
      | some cc =>
        if !(is_valid_code cc) then ((false, "Invalid custom code"), s)
        else if pyTruthy (s.db.get_url cc) then ((false, "Custom code already in use"), s)
        else finalize now s cc long_url expiry_days
      | none =>
        let g := generate_code s.db
        finalize now ⟨g.2, s.cache⟩ g.1 long_url expiry_days

/-- `URLShortener.get_long_url`.  Returns `none` exactly when the Python code
would raise (subscripting a missing stats record), which never happens in a
reachable state. -/
def get_long_url (now : Nat) (s : URLShortener) (short_code : String) :
    Option ((Bool × String) × URLShortener) :=
  let gotten := LRUCache.get short_code s.cache
  match truthyS gotten.1 with
  | some cached_url =>
      some ((true, cached_url), ⟨s.db.increment_visits short_code, gotten.2⟩)
  | none =>
    match truthyS (s.db.get_url short_code) with
    | none => some ((false, "URL not found"), ⟨s.db, gotten.2⟩)
    | some long_url =>
      match s.db.get_stats short_code with
      | none => none
      | some st =>
        let expired : Bool :=
          match st.expires_at with
          | some e => !(e = 0) && decide (e < now)
          | none => false
        if expired then some ((false, "URL has expired"), ⟨s.db, gotten.2⟩)
        else
          some ((true, long_url),
            ⟨s.db.increment_visits short_code,
             LRUCache.put short_code long_url gotten.2⟩)

/-- `URLShortener.get_url_stats` (pure: it never mutates state). -/
def get_url_stats (s : URLShortener) (short_code : String) :
    Bool × Option URLStats :=
  match s.db.get_stats short_code with
  | none => (false, none)
  | some st => (true, some st)

end URLShortener

end UrlShort

namespace UrlShort

/-! ## Association-list lemmas -/

theorem lookupS_filter_ne {α : Type} (k k' : String) (h : k' ≠ k) :
    ∀ l : List (String × α), lookupS k' (l.filter (fun p => p.1 ≠ k)) = lookupS k' l := by
  intro l
  induction l with
  | nil => rfl
  | cons p rest ih =>
    by_cases hp : p.1 = k
    · rw [List.filter_cons_of_neg (by simp [hp]), ih, lookupS,
        if_neg (fun hk : p.1 = k' => h (hk ▸ hp))]
    · rw [List.filter_cons_of_pos (by simp [hp]), lookupS, lookupS, ih]

theorem lookupS_upsert_self {α : Type} (k : String) (v : α) (l : List (String × α)) :
    lookupS k (upsert k v l) = some v := by
  simp [upsert, lookupS]

theorem lookupS_upsert_ne {α : Type} (k k' : String) (v : α) (l : List (String × α))
    (h : k' ≠ k) : lookupS k' (upsert k v l) = lookupS k' l := by
  simp only [upsert, lookupS]
  rw [if_neg (fun hk => h hk.symm), lookupS_filter_ne k k' h l]

theorem lookupS_eq_none {α : Type} (k : String) (l : List (String × α)) :
    lookupS k l = none ↔ k ∉ l.map Prod.fst := by
  induction l with
  | nil => simp [lookupS]
  | cons p rest ih =>
    by_cases hp : p.1 = k
    · simp only [lookupS, if_pos hp, List.map_cons, List.mem_cons]
      constructor
      · intro h
        exact absurd h (Option.noConfusion)
      · intro h
        exact absurd (Or.inl hp.symm) h
    · simp only [lookupS, if_neg hp, List.map_cons, List.mem_cons, ih]
      constructor
      · intro h hk
        rcases hk with hk | hk
        · exact hp hk.symm
        · exact h hk
      · intro h hk
        exact h (Or.inr hk)

theorem lookupS_some_mem {α : Type} {k : String} {l : List (String × α)} {v : α}
    (h : lookupS k l = some v) : k ∈ l.map Prod.fst := by
  by_contra hk
  rw [← lookupS_eq_none k l] at hk
  rw [hk] at h
  exact Option.noConfusion h

theorem upsert_keys_nodup {α : Type} (k : String) (v : α) (l : List (String × α))
    (h : (l.map Prod.fst).Nodup) : ((upsert k v l).map Prod.fst).Nodup := by
  simp only [upsert, List.map_cons, List.nodup_cons]
  constructor
  · intro hmem
    rcases List.mem_map.mp hmem with ⟨p, hp, hfst⟩
    have := (List.mem_filter.mp hp).2
    simp only [decide_eq_true_eq] at this
    exact this hfst
  · have hsub : List.Sublist ((l.filter (fun p => p.1 ≠ k)).map Prod.fst) (l.map Prod.fst) :=
      (List.filter_sublist l).map Prod.fst
    exact h.sublist hsub

/-! ## Base-62 encoding lemmas -/

theorem digitVal_digitChar_fin : ∀ r : Fin 62, digitVal (digitChar r.1) = r.1 := by decide

theorem digitChar_mem_fin : ∀ r : Fin 62, digitChar r.1 ∈ charsetL := by decide

theorem digitVal_digitChar (r : Nat) (h : r < 62) : digitVal (digitChar r) = r :=
  digitVal_digitChar_fin ⟨r, h⟩

theorem digitChar_mem (r : Nat) (h : r < 62) : digitChar r ∈ charsetL :=
  digitChar_mem_fin ⟨r, h⟩

theorem decChars_append (l : List Char) (c : Char) :
    decChars (l ++ [c]) = decChars l * 62 + digitVal c := by
  simp [decChars, List.foldl_append]

theorem dec_encAux : ∀ f n : Nat, n ≤ f → decChars (encAux f n) = n := by
  intro f
  induction f with
  | zero =>
    intro n hn
    interval_cases n
    rfl
  | succ f ih =>
    intro n hn
    match n with
    | 0 => rfl
    | m + 1 =>
      have hdiv : (m + 1) / 62 ≤ f := by
        have h1 : (m + 1) / 62 < m + 1 := Nat.div_lt_self (Nat.succ_pos m) (by norm_num)
        omega
      have hmod : (m + 1) % 62 < 62 := Nat.mod_lt _ (by norm_num)
      rw [encAux, decChars_append, ih _ hdiv, digitVal_digitChar _ hmod]
      omega

theorem decChars_replicate_zero (m : Nat) (l : List Char) :
    decChars (List.replicate m '0' ++ l) = decChars l := by
  induction m with
  | zero => simp
  | succ m ih =>
    have h0 : digitVal '0' = 0 := by decide
    show List.foldl (fun acc c => acc * 62 + digitVal c) 0
      ('0' :: (List.replicate m '0' ++ l)) = decChars l
    rw [List.foldl_cons, h0]
    exact ih

theorem decChars_mkCode (n : Nat) (hn : 1 ≤ n) : decChars (mkCode n).data = n := by
  have henc : (encodeBase62 n).data = encAux n n := by
    unfold encodeBase62
    rw [if_neg (by omega)]
  simp only [mkCode, rjustZero, List.leftpad, henc]
  rw [decChars_replicate_zero, dec_encAux n n le_rfl]

theorem mkCode_inj {m n : Nat} (hm : 1 ≤ m) (hn : 1 ≤ n) (h : mkCode m = mkCode n) :
    m = n := by
  have : decChars (mkCode m).data = decChars (mkCode n).data := by rw [h]
  rwa [decChars_mkCode m hm, decChars_mkCode n hn] at this

theorem encAux_length_le : ∀ f n k : Nat, n ≤ f → n < 62 ^ k → (encAux f n).length ≤ k := by
  intro f
  induction f with
  | zero =>
    intro n k hn _
    interval_cases n
    simp [encAux]
  | succ f ih =>
    intro n k hn hk
    match n with
    | 0 => simp [encAux]
    | m + 1 =>
      match k with
      | 0 => omega
      | k + 1 =>
        have hdiv : (m + 1) / 62 ≤ f := by
          have h1 : (m + 1) / 62 < m + 1 := Nat.div_lt_self (Nat.succ_pos m) (by norm_num)
          omega
        have hdivlt : (m + 1) / 62 < 62 ^ k := by
          rw [Nat.div_lt_iff_lt_mul (by norm_num : 0 < 62)]
          calc m + 1 < 62 ^ (k + 1) := hk
          _ = 62 ^ k * 62 := by ring
        have := ih ((m + 1) / 62) k hdiv hdivlt
        simp only [encAux, List.length_append, List.length_cons, List.length_nil]
        omega

theorem encAux_chars : ∀ f n : Nat, ∀ c ∈ encAux f n, c ∈ charsetL := by
  intro f
  induction f with
  | zero =>
    intro n c hc
    match n with
    | 0 => simp [encAux] at hc
    | _ + 1 => simp [encAux] at hc
  | succ f ih =>
    intro n c hc
    match n with
    | 0 => simp [encAux] at hc
    | m + 1 =>
      simp only [encAux, List.mem_append, List.mem_singleton] at hc
      rcases hc with hc | hc
      · exact ih _ c hc
      · rw [hc]
        exact digitChar_mem _ (Nat.mod_lt _ (by norm_num))

theorem mkCode_length (n : Nat) :
    (mkCode n).length = max 7 (encodeBase62 n).length := by
  show (List.leftpad 7 '0' (encodeBase62 n).data).length = max 7 (encodeBase62 n).data.length
  exact List.leftpad_length 7 '0' (encodeBase62 n).data

theorem mkCode_length_ge (n : Nat) : 7 ≤ (mkCode n).length := by
  rw [mkCode_length]; omega

theorem mkCode_ne_empty (n : Nat) : mkCode n ≠ "" := by
  intro h
  have := mkCode_length_ge n
  rw [h] at this
  simp [String.length] at this

theorem mkCode_length_eq_seven {n : Nat} (hn : 1 ≤ n) (h : n < 62 ^ 7) :
    (mkCode n).length = 7 := by
  have henc : (encodeBase62 n).data = encAux n n := by
    unfold encodeBase62
    rw [if_neg (by omega)]
  have hlen : (encodeBase62 n).length ≤ 7 := by
    show (encodeBase62 n).data.length ≤ 7
    rw [henc]
    exact encAux_length_le n n 7 le_rfl h
  rw [mkCode_length]
  omega

theorem mkCode_chars (n : Nat) : ∀ c ∈ (mkCode n).data, c ∈ charsetL := by
  intro c hc
  simp only [mkCode, rjustZero, List.leftpad] at hc
  rcases List.mem_append.mp hc with hc | hc
  · rw [List.eq_of_mem_replicate hc]
    exact digitChar_mem 0 (by norm_num)
  · by_cases hn : n = 0
    · subst hn
      simp only [encodeBase62, if_pos rfl] at hc
      rw [List.mem_singleton.mp hc]
      exact digitChar_mem 0 (by norm_num)
    · have henc : (encodeBase62 n).data = encAux n n := by
        unfold encodeBase62
        rw [if_neg hn]
      rw [henc] at hc
      exact encAux_chars n n c hc

end UrlShort


namespace UrlShort

/-! ## Truthiness lemmas -/

theorem pyTruthy_true_iff (o : Option String) :
    pyTruthy o = true ↔ ∃ v, o = some v ∧ v ≠ "" := by
  cases o with
  | none => simp [pyTruthy, truthyS]
  | some s =>
    by_cases hs : s = ""
    · subst hs
      simp [pyTruthy, truthyS]
    · simp [pyTruthy, truthyS, hs]

theorem pyTruthy_false_iff (o : Option String) :
    pyTruthy o = false ↔ o = none ∨ o = some "" := by
  cases o with
  | none => simp [pyTruthy, truthyS]
  | some s =>
    by_cases hs : s = ""
    · subst hs
      simp [pyTruthy, truthyS]
    · simp [pyTruthy, truthyS, hs]

theorem truthyS_some_iff (o : Option String) (v : String) :
    truthyS o = some v ↔ o = some v ∧ v ≠ "" := by
  cases o with
  | none => simp [truthyS]
  | some s =>
    by_cases hs : s = ""
    · subst hs
      simp only [truthyS, if_pos rfl]
      constructor
      · intro h
        exact Option.noConfusion h
      · intro ⟨h1, h2⟩
        exact absurd (Option.some_inj.mp h1).symm h2
    · simp only [truthyS, if_neg hs, Option.some_inj]
      constructor
      · intro h
        subst h
        exact ⟨rfl, hs⟩
      · intro h
        exact h.1

theorem truthyS_none (v : String) (hv : v ≠ "") : truthyS (some v) = some v := by
  simp [truthyS, hv]

/-! ## Code generation lemmas -/

namespace URLShortener

theorem genAux_succ_eq (fuel : Nat) (db : URLDatabase) :
    genAux (fuel + 1) db =
      if pyTruthy (URLDatabase.get_url ⟨db.url_to_code, db.code_to_url, db.stats, db.counter + 1⟩
          (rjustZero (encodeBase62 (db.counter + 1))))
      then genAux fuel ⟨db.url_to_code, db.code_to_url, db.stats, db.counter + 1⟩
      else (rjustZero (encodeBase62 (db.counter + 1)),
        ⟨db.url_to_code, db.code_to_url, db.stats, db.counter + 1⟩) := rfl

theorem genNums_succ_eq (fuel : Nat) (db : URLDatabase) :
    genNums (fuel + 1) db =
      if pyTruthy (URLDatabase.get_url ⟨db.url_to_code, db.code_to_url, db.stats, db.counter + 1⟩
          (rjustZero (encodeBase62 (db.counter + 1))))
      then (db.counter + 1) :: genNums fuel ⟨db.url_to_code, db.code_to_url, db.stats, db.counter + 1⟩
      else [db.counter + 1] := rfl

theorem genAux_frame : ∀ (fuel : Nat) (db : URLDatabase),
    (genAux fuel db).2.url_to_code = db.url_to_code ∧
    (genAux fuel db).2.code_to_url = db.code_to_url ∧
    (genAux fuel db).2.stats = db.stats ∧
    db.counter ≤ (genAux fuel db).2.counter := by
  intro fuel
  induction fuel with
  | zero => exact fun db => ⟨rfl, rfl, rfl, le_rfl⟩
  | succ fuel ih =>
    intro db
    rw [genAux_succ_eq]
    split
    · obtain ⟨h1, h2, h3, h4⟩ := ih ⟨db.url_to_code, db.code_to_url, db.stats, db.counter + 1⟩
      have h4' : db.counter + 1 ≤
          (genAux fuel ⟨db.url_to_code, db.code_to_url, db.stats, db.counter + 1⟩).2.counter := h4
      exact ⟨h1, h2, h3, by omega⟩
    · exact ⟨rfl, rfl, rfl, Nat.le_succ db.counter⟩

theorem genAux_success : ∀ (fuel : Nat) (db : URLDatabase),
    (∃ i, i < fuel ∧
      pyTruthy (lookupS (mkCode (db.counter + 1 + i)) db.code_to_url) = false) →
    pyTruthy (lookupS (genAux fuel db).1 db.code_to_url) = false ∧
    (genAux fuel db).1 = mkCode (genAux fuel db).2.counter ∧
    db.counter < (genAux fuel db).2.counter := by
  intro fuel
  induction fuel with
  | zero =>
    rintro db ⟨i, hi, -⟩
    omega
  | succ fuel ih =>
    rintro db ⟨i, hi, hfree⟩
    rw [genAux_succ_eq]
    split
    · next hcol =>
      have hcol' : pyTruthy (lookupS (mkCode (db.counter + 1)) db.code_to_url) = true := hcol
      match i, hi, hfree with
      | 0, _, hfree =>
        have hfree' : pyTruthy (lookupS (mkCode (db.counter + 1)) db.code_to_url) = false := by
          have : db.counter + 1 = db.counter + 1 + 0 := by omega
          rw [this]
          exact hfree
        rw [hcol'] at hfree'
        exact Bool.noConfusion hfree'
      | j + 1, hj, hfree =>
        have hshift : pyTruthy (lookupS (mkCode (db.counter + 1 + 1 + j)) db.code_to_url)
            = false := by
          have : db.counter + 1 + 1 + j = db.counter + 1 + (j + 1) := by omega
          rw [this]
          exact hfree
        obtain ⟨g1, g2, g3⟩ :=
          ih ⟨db.url_to_code, db.code_to_url, db.stats, db.counter + 1⟩ ⟨j, by omega, hshift⟩
        have g3' : db.counter + 1 <
            (genAux fuel ⟨db.url_to_code, db.code_to_url, db.stats, db.counter + 1⟩).2.counter := g3
        exact ⟨g1, g2, by omega⟩
    · next hcol =>
      have hfa : pyTruthy (lookupS (mkCode (db.counter + 1)) db.code_to_url) = false :=
        Bool.eq_false_iff.mpr hcol
      exact ⟨hfa, rfl, Nat.lt_succ_self db.counter⟩

theorem gen_exists (db : URLDatabase) :
    ∃ i, i < db.code_to_url.length + 1 ∧
      pyTruthy (lookupS (mkCode (db.counter + 1 + i)) db.code_to_url) = false := by
  by_contra hcon
  push_neg at hcon
  have htrue : ∀ i, i < db.code_to_url.length + 1 →
      pyTruthy (lookupS (mkCode (db.counter + 1 + i)) db.code_to_url) = true := by
    intro i hi
    cases hb : pyTruthy (lookupS (mkCode (db.counter + 1 + i)) db.code_to_url) with
    | false => exact absurd hb (hcon i hi)
    | true => rfl
  have hnd : ((List.range (db.code_to_url.length + 1)).map
      (fun i => mkCode (db.counter + 1 + i))).Nodup := by
    refine List.Nodup.map ?_ (List.nodup_range _)
    intro a b hab
    have := mkCode_inj (show 1 ≤ db.counter + 1 + a by omega)
      (show 1 ≤ db.counter + 1 + b by omega) hab
    omega
  have hsub : ((List.range (db.code_to_url.length + 1)).map
      (fun i => mkCode (db.counter + 1 + i))) ⊆ db.code_to_url.map Prod.fst := by
    intro x hx
    obtain ⟨i, hi, rfl⟩ := List.mem_map.mp hx
    have hi' : i < db.code_to_url.length + 1 := List.mem_range.mp hi
    obtain ⟨v, hv, -⟩ := (pyTruthy_true_iff _).mp (htrue i hi')
    exact lookupS_some_mem hv
  have hle := (List.subperm_of_subset hnd hsub).length_le
  simp only [List.length_map, List.length_range] at hle
  have : (db.code_to_url.map Prod.fst).length = db.code_to_url.length := List.length_map _ _
  omega

theorem generate_code_spec (db : URLDatabase) :
    pyTruthy (lookupS (generate_code db).1 db.code_to_url) = false ∧
    (generate_code db).1 = mkCode (generate_code db).2.counter ∧
    db.counter < (generate_code db).2.counter ∧
    (generate_code db).2.url_to_code = db.url_to_code ∧
    (generate_code db).2.code_to_url = db.code_to_url ∧
    (generate_code db).2.stats = db.stats := by
  obtain ⟨h1, h2, h3⟩ := genAux_success (db.code_to_url.length + 1) db (gen_exists db)
  obtain ⟨f1, f2, f3, -⟩ := genAux_frame (db.code_to_url.length + 1) db
  exact ⟨h1, h2, h3, f1, f2, f3⟩

theorem generate_code_fresh (db : URLDatabase) :
    lookupS (generate_code db).1 db.code_to_url = none ∨
    lookupS (generate_code db).1 db.code_to_url = some "" := by
  exact (pyTruthy_false_iff _).mp (generate_code_spec db).1

end URLShortener

end UrlShort

namespace UrlShort

namespace URLShortener

theorem genNums_spec : ∀ (fuel : Nat) (db : URLDatabase),
    genNums fuel db =
      List.range' (db.counter + 1) ((genAux fuel db).2.counter - db.counter) := by
  intro fuel
  induction fuel with
  | zero =>
    intro db
    show ([] : List Nat) = List.range' (db.counter + 1) (db.counter - db.counter)
    rw [Nat.sub_self]
    rfl
  | succ fuel ih =>
    intro db
    rw [genNums_succ_eq, genAux_succ_eq]
    split
    · rw [ih ⟨db.url_to_code, db.code_to_url, db.stats, db.counter + 1⟩]
      obtain ⟨-, -, -, hfr⟩ :=
        genAux_frame fuel ⟨db.url_to_code, db.code_to_url, db.stats, db.counter + 1⟩
      have hfr' : db.counter + 1 ≤
          (genAux fuel ⟨db.url_to_code, db.code_to_url, db.stats, db.counter + 1⟩).2.counter := hfr
      have hsub :
          (genAux fuel ⟨db.url_to_code, db.code_to_url, db.stats, db.counter + 1⟩).2.counter
            - db.counter =
          ((genAux fuel ⟨db.url_to_code, db.code_to_url, db.stats, db.counter + 1⟩).2.counter
            - (db.counter + 1)) + 1 := by omega
      rw [hsub, List.range'_succ]
    · have hsub : (db.counter + 1) - db.counter = 1 := by omega
      rw [hsub, List.range'_succ]
      rfl

end URLShortener

end UrlShort

namespace UrlShort

/-! ## Abstract LRU workloads (for the eviction-correctness claim) -/

/-- One operation of an LRU workload. -/
inductive LOp where
  | get (k : String)
  | put (k : String) (v : String)
deriving Repr, DecidableEq

/-- The state change performed by one operation. -/
def lruStep (c : LRUCache) : LOp → LRUCache
  | .get k => (LRUCache.get k c).2
  | .put k v => LRUCache.put k v c

/-- Run a workload from a given cache state. -/
def lruRunFrom (c : LRUCache) (ops : List LOp) : LRUCache :=
  ops.foldl lruStep c

/-- Run a workload from the empty cache of capacity `cap`. -/
def lruRun (cap : Nat) (ops : List LOp) : LRUCache :=
  lruRunFrom ⟨cap, []⟩ ops

/-- The key touched by one operation in state `c`: a `put` always touches its
key, a `get` touches its key exactly on a hit. -/
def touchOf (c : LRUCache) : LOp → List String
  | .get k => if (c.items.find? (fun p => p.1 = k)).isSome then [k] else []
  | .put k _ => [k]

/-- The chronological list of touched keys along a workload. -/
def touchesFrom (c : LRUCache) : List LOp → List String
  | [] => []
  | op :: ops => touchOf c op ++ touchesFrom (lruStep c op) ops

/-- Touches of a workload started from the empty cache of capacity `cap`. -/
def lruTouches (cap : Nat) (ops : List LOp) : List String :=
  touchesFrom ⟨cap, []⟩ ops

/-- Deduplication keeping the first occurrence of each element. -/
def mruDedup : List String → List String
  | [] => []
  | a :: l => a :: (mruDedup l).filter (fun b => b ≠ a)

/-- The keys of a touch trace ordered from most- to least-recently touched. -/
def mruList (tr : List String) : List String :=
  mruDedup tr.reverse

theorem mruDedup_nodup : ∀ l : List String, (mruDedup l).Nodup := by
  intro l
  induction l with
  | nil => exact List.nodup_nil
  | cons a l ih =>
    refine List.nodup_cons.mpr ⟨?_, ?_⟩
    · intro hmem
      have := (List.mem_filter.mp hmem).2
      simp at this
    · exact List.Nodup.filter _ ih

theorem mruList_append (tr : List String) (k : String) :
    mruList (tr ++ [k]) = k :: (mruList tr).filter (fun b => b ≠ k) := by
  show mruDedup ((tr ++ [k]).reverse) = _
  rw [List.reverse_append]
  rfl

theorem mruList_nodup (tr : List String) : (mruList tr).Nodup :=
  mruDedup_nodup tr.reverse

/-! ### Small-step facts about the cache operations -/

namespace LRUCache

theorem get_eq_hit {k : String} {c : LRUCache} {p : String × String}
    (h : c.items.find? (fun p => p.1 = k) = some p) :
    get k c = (some p.2, { c with items := (k, p.2) :: eraseKey k c.items }) := by
  unfold get
  rw [h]

theorem get_eq_miss {k : String} {c : LRUCache}
    (h : c.items.find? (fun p => p.1 = k) = none) :
    get k c = (none, c) := by
  unfold get
  rw [h]

theorem put_eq (k v : String) (c : LRUCache) :
    put k v c =
      if c.capacity < ((k, v) :: eraseKey k c.items).length
      then { c with items := ((k, v) :: eraseKey k c.items).dropLast }
      else { c with items := (k, v) :: eraseKey k c.items } := rfl

theorem eraseKey_keys (k : String) (l : List (String × String)) :
    (eraseKey k l).map Prod.fst = (l.map Prod.fst).filter (fun x => x ≠ k) := by
  induction l with
  | nil => rfl
  | cons p rest ih =>
    by_cases hp : p.1 = k
    · rw [eraseKey, List.filter_cons_of_neg (by simp [hp]), List.map_cons,
        List.filter_cons_of_neg (by simp [hp])]
      exact ih
    · rw [eraseKey, List.filter_cons_of_pos (by simp [hp]), List.map_cons, List.map_cons,
        List.filter_cons_of_pos (by simp [hp])]
      rw [show eraseKey k rest = rest.filter (fun p => p.1 ≠ k) from rfl] at ih
      rw [ih]

theorem eraseKey_eq_self {k : String} {l : List (String × String)}
    (h : k ∉ l.map Prod.fst) : eraseKey k l = l := by
  rw [eraseKey, List.filter_eq_self]
  intro p hp
  simp only [decide_eq_true_eq]
  intro hk
  exact h (List.mem_map.mpr ⟨p, hp, hk⟩)

theorem eraseKey_sub {k : String} {l : List (String × String)} :
    ∀ p ∈ eraseKey k l, p ∈ l :=
  fun _ hp => List.mem_of_mem_filter hp

theorem capacity_get (k : String) (c : LRUCache) : (get k c).2.capacity = c.capacity := by
  unfold get
  cases c.items.find? (fun p => p.1 = k) <;> rfl

theorem capacity_put (k v : String) (c : LRUCache) : (put k v c).capacity = c.capacity := by
  rw [put_eq]
  split <;> rfl

end LRUCache

theorem lruStep_capacity (c : LRUCache) (op : LOp) : (lruStep c op).capacity = c.capacity := by
  cases op with
  | get k => exact LRUCache.capacity_get k c
  | put k v => exact LRUCache.capacity_put k v c

/-! ### Take/filter lemmas used in the LRU invariant -/

theorem filter_length_of_mem {l : List String} {k : String}
    (hnd : l.Nodup) (hk : k ∈ l) :
    (l.filter (fun x => x ≠ k)).length + 1 = l.length := by
  induction l with
  | nil => exact absurd hk (List.not_mem_nil k)
  | cons a l ih =>
    rcases List.nodup_cons.mp hnd with ⟨ha, hnd'⟩
    by_cases hak : a = k
    · subst hak
      have hfe : l.filter (fun x => x ≠ a) = l :=
        List.filter_eq_self.mpr (fun b hb => by
          simp only [decide_eq_true_eq]
          intro hba
          exact ha (hba ▸ hb))
      rw [List.filter_cons_of_neg (by simp), hfe, List.length_cons]
    · rcases List.mem_cons.mp hk with hk' | hk'
      · exact absurd hk'.symm hak
      · rw [List.filter_cons_of_pos (by simp [hak]), List.length_cons, List.length_cons,
          ← ih hnd' hk']

theorem filter_take_of_mem : ∀ (M : List String) (cap : Nat) (k : String),
    M.Nodup → k ∈ M.take cap →
    (M.filter (fun x => x ≠ k)).take (cap - 1) = (M.take cap).filter (fun x => x ≠ k) := by
  intro M
  induction M with
  | nil =>
    intro cap k _ hk
    simp at hk
  | cons a M ih =>
    intro cap k hnd hk
    match cap with
    | 0 => simp at hk
    | c + 1 =>
      rcases List.nodup_cons.mp hnd with ⟨ha, hnd'⟩
      rw [List.take_succ_cons] at hk
      simp only [Nat.add_sub_cancel]
      rw [List.take_succ_cons]
      by_cases hak : a = k
      · subst hak
        have hfa : M.filter (fun x => x ≠ a) = M :=
          List.filter_eq_self.mpr (fun b hb => by
            simp only [decide_eq_true_eq]
            intro hba
            exact ha (hba ▸ hb))
        have hfa' : (M.take c).filter (fun x => x ≠ a) = M.take c :=
          List.filter_eq_self.mpr (fun b hb => by
            simp only [decide_eq_true_eq]
            intro hba
            exact ha (hba ▸ List.mem_of_mem_take hb))
        rw [List.filter_cons_of_neg (by simp), hfa, List.filter_cons_of_neg (by simp), hfa']
      · have hk' : k ∈ M.take c := by
          rcases List.mem_cons.mp hk with h | h
          · exact absurd h.symm hak
          · exact h
        have hc : c ≠ 0 := by
          intro h
          subst h
          simp at hk'
        rw [List.filter_cons_of_pos (by simp [hak]), List.filter_cons_of_pos (by simp [hak])]
        match c, hc with
        | c' + 1, _ =>
          rw [List.take_succ_cons]
          have h2 := ih (c' + 1) k hnd' hk'
          simp only [Nat.add_sub_cancel] at h2
          rw [h2]

theorem take_filter_of_not_mem : ∀ (M : List String) (cap : Nat) (k : String),
    k ∉ M.take cap →
    (M.filter (fun x => x ≠ k)).take (cap - 1) = M.take (cap - 1) := by
  intro M
  induction M with
  | nil =>
    intro cap k _
    rfl
  | cons a M ih =>
    intro cap k hk
    match cap with
    | 0 => rfl
    | c + 1 =>
      simp only [Nat.add_sub_cancel]
      rw [List.take_succ_cons] at hk
      have hak : a ≠ k := by
        intro h
        exact hk (by rw [h]; exact List.mem_cons_self k (M.take c))
      have hk' : k ∉ M.take c := fun h => hk (List.mem_cons_of_mem a h)
      rw [List.filter_cons_of_pos (by simp [hak])]
      match c with
      | 0 => rfl
      | c' + 1 =>
        rw [List.take_succ_cons, List.take_succ_cons]
        have h2 := ih (c' + 1) k hk'
        simp only [Nat.add_sub_cancel] at h2
        rw [h2]

end UrlShort

namespace UrlShort

/-! ### The LRU recency invariant -/

theorem lru_step_keys {cap : Nat} (hcap : 1 ≤ cap) (c : LRUCache) (tr : List String) (op : LOp)
    (hc : c.capacity = cap)
    (h : c.items.map Prod.fst = (mruList tr).take cap) :
    (lruStep c op).items.map Prod.fst = (mruList (tr ++ touchOf c op)).take cap := by
  have hnd : (mruList tr).Nodup := mruList_nodup tr
  obtain ⟨capp, rfl⟩ : ∃ m, cap = m + 1 := ⟨cap - 1, by omega⟩
  cases op with
  | get k =>
    cases hf : c.items.find? (fun p => p.1 = k) with
    | none =>
      show ((LRUCache.get k c).2).items.map Prod.fst = _
      rw [LRUCache.get_eq_miss hf]
      have ht : touchOf c (LOp.get k) = [] := by
        simp [touchOf, hf]
      rw [ht, List.append_nil]
      exact h
    | some p =>
      have hpk : p.1 = k := by
        have := List.find?_some hf
        simpa using this
      have hkmem : k ∈ c.items.map Prod.fst :=
        List.mem_map.mpr ⟨p, List.mem_of_find?_eq_some hf, hpk⟩
      have hktake : k ∈ (mruList tr).take (capp + 1) := h ▸ hkmem
      have ht : touchOf c (LOp.get k) = [k] := by
        simp [touchOf, hf]
      show ((LRUCache.get k c).2).items.map Prod.fst = _
      rw [LRUCache.get_eq_hit hf, ht, mruList_append]
      show k :: (LRUCache.eraseKey k c.items).map Prod.fst = _
      rw [LRUCache.eraseKey_keys, h, List.take_succ_cons]
      have hft := filter_take_of_mem (mruList tr) (capp + 1) k hnd hktake
      simp only [Nat.add_sub_cancel] at hft
      rw [hft]
  | put k v =>
    have ht : touchOf c (LOp.put k v) = [k] := rfl
    show (LRUCache.put k v c).items.map Prod.fst = _
    rw [ht, mruList_append, LRUCache.put_eq, hc]
    have hlenmap : (c.items.map Prod.fst).length = ((mruList tr).take (capp + 1)).length :=
      congrArg List.length h
    rw [List.length_map, List.length_take] at hlenmap
    by_cases hk : k ∈ c.items.map Prod.fst
    · -- the key is already cached: the size does not change, no eviction
      have hknd : (c.items.map Prod.fst).Nodup := by
        rw [h]
        exact hnd.sublist (List.take_sublist _ _)
      have herlen : ((LRUCache.eraseKey k c.items).map Prod.fst).length + 1 =
          (c.items.map Prod.fst).length := by
        rw [LRUCache.eraseKey_keys]
        exact filter_length_of_mem hknd hk
      rw [List.length_map, List.length_map] at herlen
      have hnotover : ¬ (capp + 1 < ((k, v) :: LRUCache.eraseKey k c.items).length) := by
        rw [List.length_cons]
        omega
      rw [if_neg hnotover]
      have hktake : k ∈ (mruList tr).take (capp + 1) := h ▸ hk
      show k :: (LRUCache.eraseKey k c.items).map Prod.fst = _
      rw [LRUCache.eraseKey_keys, h, List.take_succ_cons]
      have hft := filter_take_of_mem (mruList tr) (capp + 1) k hnd hktake
      simp only [Nat.add_sub_cancel] at hft
      rw [hft]
    · -- the key is new
      have herase : LRUCache.eraseKey k c.items = c.items := LRUCache.eraseKey_eq_self hk
      rw [herase]
      have hktake : k ∉ (mruList tr).take (capp + 1) := h ▸ hk
      have htf := take_filter_of_not_mem (mruList tr) (capp + 1) k hktake
      simp only [Nat.add_sub_cancel] at htf
      by_cases hfull : c.items.length = capp + 1
      · -- at capacity: one eviction from the tail
        rw [if_pos (by rw [List.length_cons]; omega)]
        rw [List.dropLast_eq_take]
        show (((k, v) :: c.items).take (((k, v) :: c.items).length - 1)).map Prod.fst = _
        rw [List.length_cons, hfull, Nat.add_sub_cancel, List.map_take, List.map_cons,
          List.take_succ_cons, h, List.take_take, List.take_succ_cons, htf]
        have : min capp (capp + 1) = capp := by omega
        rw [this]
      · -- below capacity: no eviction
        rw [if_neg (by rw [List.length_cons]; omega)]
        have hlt : c.items.length < capp + 1 := by
          omega
        have hMlen : (mruList tr).length = c.items.length := by
          omega
        have htakeall : (mruList tr).take (capp + 1) = mruList tr :=
          List.take_of_length_le (by omega)
        have htakeall' : (mruList tr).take capp = mruList tr :=
          List.take_of_length_le (by omega)
        show k :: c.items.map Prod.fst = _
        rw [h, htakeall, List.take_succ_cons, htf, htakeall']

end UrlShort

namespace UrlShort

theorem lru_run_keys {cap : Nat} (hcap : 1 ≤ cap) :
    ∀ (ops : List LOp) (c : LRUCache) (tr : List String),
    c.capacity = cap →
    c.items.map Prod.fst = (mruList tr).take cap →
    (lruRunFrom c ops).items.map Prod.fst = (mruList (tr ++ touchesFrom c ops)).take cap := by
  intro ops
  induction ops with
  | nil =>
    intro c tr _ h
    rw [show touchesFrom c [] = [] from rfl, List.append_nil]
    exact h
  | cons op ops ih =>
    intro c tr hc h
    show (lruRunFrom (lruStep c op) ops).items.map Prod.fst = _
    rw [show touchesFrom c (op :: ops) = touchOf c op ++ touchesFrom (lruStep c op) ops from rfl,
      ← List.append_assoc]
    exact ih (lruStep c op) (tr ++ touchOf c op)
      ((lruStep_capacity c op).trans hc)
      (lru_step_keys hcap c tr op hc h)

theorem lruRun_keys (cap : Nat) (hcap : 1 ≤ cap) (ops : List LOp) :
    (lruRun cap ops).items.map Prod.fst = (mruList (lruTouches cap ops)).take cap := by
  have := lru_run_keys hcap ops ⟨cap, []⟩ [] rfl (by simp [mruList, mruDedup])
  simpa using this

theorem lruRun_length_le (cap : Nat) (hcap : 1 ≤ cap) (ops : List LOp) :
    (lruRun cap ops).items.length ≤ cap := by
  have h := lruRun_keys cap hcap ops
  have := congrArg List.length h
  rw [List.length_map] at this
  rw [this]
  exact List.length_take_le _ _

end UrlShort

namespace UrlShort

/-! ## Reachable states and the store invariant -/

/-- States reachable through the public operations of `URLShortener`,
starting from a freshly constructed instance, with arbitrary clock values. -/
inductive Reachable : URLShortener → Prop
  | init (cache_size : Nat) : Reachable (URLShortener.init cache_size)
  | create (now : Nat) (long_url : String) (custom_code : Option String)
      (expiry_days : Option Nat) {s : URLShortener} :
      Reachable s →
      Reachable (URLShortener.create_short_url now s long_url custom_code expiry_days).2
  | resolve (now : Nat) (short_code : String) {s s' : URLShortener} (r : Bool × String) :
      Reachable s → URLShortener.get_long_url now s short_code = some (r, s') →
      Reachable s'

/-- The cross-structure invariant maintained by the public operations. -/
structure Inv (s : URLShortener) : Prop where
  inv_c2u : ∀ c u, lookupS c s.db.code_to_url = some u → lookupS u s.db.url_to_code = some c
  inv_u2c : ∀ u c, lookupS u s.db.url_to_code = some c → lookupS c s.db.code_to_url = some u
  url_valid : ∀ c u, lookupS c s.db.code_to_url = some u → is_valid_url u = true
  code_ne : ∀ u c, lookupS u s.db.url_to_code = some c → c ≠ ""
  cache_sub : ∀ k v, (k, v) ∈ s.cache.items → lookupS k s.db.code_to_url = some v

theorem valid_url_ne_empty {u : String} (h : is_valid_url u = true) : u ≠ "" :=
  fun he => absurd (he ▸ h) (by decide)

theorem truthyS_eq_none_iff (o : Option String) :
    truthyS o = none ↔ o = none ∨ o = some "" := by
  cases o with
  | none => simp [truthyS]
  | some s =>
    by_cases hs : s = ""
    · subst hs
      simp [truthyS]
    · simp [truthyS, hs]

/-- Under the invariant, a falsy `code → url` lookup means the code is absent. -/
theorem inv_code_lookup_none {s : URLShortener} (hInv : Inv s) {c : String}
    (h : pyTruthy (lookupS c s.db.code_to_url) = false) :
    lookupS c s.db.code_to_url = none := by
  rcases (pyTruthy_false_iff _).mp h with h' | h'
  · exact h'
  · exact absurd (valid_url_ne_empty (hInv.url_valid c "" h')) (fun hne => hne rfl)

/-- Under the invariant, a falsy `url → code` lookup means the URL is absent. -/
theorem inv_url_lookup_none {s : URLShortener} (hInv : Inv s) {u : String}
    (h : truthyS (lookupS u s.db.url_to_code) = none) :
    lookupS u s.db.url_to_code = none := by
  rcases (truthyS_eq_none_iff _).mp h with h' | h'
  · exact h'
  · exact absurd (hInv.code_ne u "" h') (fun hne => hne rfl)

namespace URLShortener

/-! ### Branch equations for `create_short_url` -/

theorem create_invalid {long_url : String} (now : Nat) (s : URLShortener)
    (cc : Option String) (ed : Option Nat) (h : is_valid_url long_url = false) :
    create_short_url now s long_url cc ed = ((false, "Invalid URL format"), s) := by
  simp [create_short_url, h]

theorem create_existing {long_url code : String} (now : Nat) (s : URLShortener)
    (cc : Option String) (ed : Option Nat) (hv : is_valid_url long_url = true)
    (he : truthyS (s.db.get_code long_url) = some code) :
    create_short_url now s long_url cc ed = ((true, code), s) := by
  simp [create_short_url, hv, he]

theorem create_custom_invalid {long_url cc : String} (now : Nat) (s : URLShortener)
    (custom_code : Option String) (ed : Option Nat)
    (hv : is_valid_url long_url = true)
    (he : truthyS (s.db.get_code long_url) = none)
    (hcc : truthyS custom_code = some cc)
    (hbad : is_valid_code cc = false) :
    create_short_url now s long_url custom_code ed = ((false, "Invalid custom code"), s) := by
  simp [create_short_url, hv, he, hcc, hbad]

theorem create_custom_taken {long_url cc : String} (now : Nat) (s : URLShortener)
    (custom_code : Option String) (ed : Option Nat)
    (hv : is_valid_url long_url = true)
    (he : truthyS (s.db.get_code long_url) = none)
    (hcc : truthyS custom_code = some cc)
    (hok : is_valid_code cc = true)
    (hinuse : pyTruthy (s.db.get_url cc) = true) :
    create_short_url now s long_url custom_code ed =
      ((false, "Custom code already in use"), s) := by
  simp [create_short_url, hv, he, hcc, hok, hinuse]

theorem create_custom_free {long_url cc : String} (now : Nat) (s : URLShortener)
    (custom_code : Option String) (ed : Option Nat)
    (hv : is_valid_url long_url = true)
    (he : truthyS (s.db.get_code long_url) = none)
    (hcc : truthyS custom_code = some cc)
    (hok : is_valid_code cc = true)
    (hfree : pyTruthy (s.db.get_url cc) = false) :
    create_short_url now s long_url custom_code ed = finalize now s cc long_url ed := by
  simp [create_short_url, hv, he, hcc, hok, hfree]

theorem create_generated {long_url : String} (now : Nat) (s : URLShortener)
    (custom_code : Option String) (ed : Option Nat)
    (hv : is_valid_url long_url = true)
    (he : truthyS (s.db.get_code long_url) = none)
    (hcc : truthyS custom_code = none) :
    create_short_url now s long_url custom_code ed =
      finalize now ⟨(generate_code s.db).2, s.cache⟩ (generate_code s.db).1 long_url ed := by
  simp [create_short_url, hv, he, hcc]

end URLShortener

end UrlShort

namespace UrlShort

namespace LRUCache

/-- A key absent from the cache misses, with no mutation. -/
theorem get_of_not_mem {k : String} {c : LRUCache} (h : k ∉ c.items.map Prod.fst) :
    get k c = (none, c) := by
  refine get_eq_miss (List.find?_eq_none.mpr ?_)
  intro p hp
  simp only [decide_eq_true_eq]
  intro hk
  exact h (List.mem_map.mpr ⟨p, hp, hk⟩)

/-- Everything in the cache after a `get` was in the cache before. -/
theorem get_items_sub (k : String) (c : LRUCache) :
    ∀ q ∈ (get k c).2.items, q ∈ c.items := by
  intro q hq
  cases hf : c.items.find? (fun p => p.1 = k) with
  | none =>
    rw [get_eq_miss hf] at hq
    exact hq
  | some p =>
    rw [get_eq_hit hf] at hq
    rcases List.mem_cons.mp hq with hq' | hq'
    · have hpk : p.1 = k := by
        have := List.find?_some hf
        simpa using this
      have hpq : q = p := by
        rw [hq', ← hpk]
      exact hpq ▸ List.mem_of_find?_eq_some hf
    · exact eraseKey_sub q hq'

/-- Everything in the cache after a `put` is the new pair or an old pair with
a different key. -/
theorem put_items_mem {k v : String} {c : LRUCache} :
    ∀ q ∈ (put k v c).items, q = (k, v) ∨ (q ∈ c.items ∧ q.1 ≠ k) := by
  intro q hq
  have hq' : q ∈ (k, v) :: eraseKey k c.items := by
    rw [put_eq] at hq
    split at hq
    · exact (List.dropLast_sublist _).subset hq
    · exact hq
  rcases List.mem_cons.mp hq' with h | h
  · exact Or.inl h
  · refine Or.inr ⟨eraseKey_sub q h, ?_⟩
    have := (List.mem_filter.mp h).2
    simpa using this

end LRUCache

namespace URLDatabase

theorem increment_visits_frame (c : String) (db : URLDatabase) :
    (increment_visits c db).url_to_code = db.url_to_code ∧
    (increment_visits c db).code_to_url = db.code_to_url ∧
    (increment_visits c db).counter = db.counter := by
  unfold increment_visits
  cases lookupS c db.stats <;> exact ⟨rfl, rfl, rfl⟩

end URLDatabase

namespace URLShortener

/-! ### Branch equations for `get_long_url` -/

theorem resolve_hit {code url : String} (now : Nat) (s : URLShortener)
    (h : truthyS (LRUCache.get code s.cache).1 = some url) :
    get_long_url now s code =
      some ((true, url),
        ⟨s.db.increment_visits code, (LRUCache.get code s.cache).2⟩) := by
  simp [get_long_url, h]

theorem resolve_notfound {code : String} (now : Nat) (s : URLShortener)
    (h1 : truthyS (LRUCache.get code s.cache).1 = none)
    (h2 : truthyS (s.db.get_url code) = none) :
    get_long_url now s code =
      some ((false, "URL not found"), ⟨s.db, (LRUCache.get code s.cache).2⟩) := by
  simp [get_long_url, h1, h2]

theorem resolve_nostats {code url : String} (now : Nat) (s : URLShortener)
    (h1 : truthyS (LRUCache.get code s.cache).1 = none)
    (h2 : truthyS (s.db.get_url code) = some url)
    (h3 : s.db.get_stats code = none) :
    get_long_url now s code = none := by
  simp [get_long_url, h1, h2, h3]

theorem resolve_db {code url : String} {st : URLStats} (now : Nat) (s : URLShortener)
    (h1 : truthyS (LRUCache.get code s.cache).1 = none)
    (h2 : truthyS (s.db.get_url code) = some url)
    (h3 : s.db.get_stats code = some st) :
    get_long_url now s code =
      if (match st.expires_at with
          | some e => !(e = 0) && decide (e < now)
          | none => false)
      then some ((false, "URL has expired"), ⟨s.db, (LRUCache.get code s.cache).2⟩)
      else some ((true, url),
        ⟨s.db.increment_visits code,
          LRUCache.put code url (LRUCache.get code s.cache).2⟩) := by
  simp [get_long_url, h1, h2, h3]

end URLShortener

end UrlShort

namespace UrlShort

/-! ### Invariant preservation -/

theorem inv_of_sub (s s' : URLShortener)
    (h1 : s'.db.url_to_code = s.db.url_to_code)
    (h2 : s'.db.code_to_url = s.db.code_to_url)
    (h3 : ∀ q ∈ s'.cache.items, q ∈ s.cache.items)
    (hInv : Inv s) : Inv s' := by
  constructor
  · intro c u h
    rw [h2] at h
    rw [h1]
    exact hInv.inv_c2u c u h
  · intro u c h
    rw [h1] at h
    rw [h2]
    exact hInv.inv_u2c u c h
  · intro c u h
    rw [h2] at h
    exact hInv.url_valid c u h
  · intro u c h
    rw [h1] at h
    exact hInv.code_ne u c h
  · intro k v h
    rw [h2]
    exact hInv.cache_sub k v (h3 (k, v) h)

theorem finalize_inv (now : Nat) (s : URLShortener) (code url : String) (ed : Option Nat)
    (hInv : Inv s)
    (hcode_ne : code ≠ "")
    (hcode_fresh : lookupS code s.db.code_to_url = none)
    (hurl_fresh : lookupS url s.db.url_to_code = none)
    (hurl_valid : is_valid_url url = true) :
    Inv (URLShortener.finalize now s code url ed).2 := by
  constructor
  · intro c u h
    have h' : lookupS c (upsert code url s.db.code_to_url) = some u := h
    show lookupS u (upsert url code s.db.url_to_code) = some c
    by_cases hc : c = code
    · subst hc
      rw [lookupS_upsert_self] at h'
      have hu : u = url := (Option.some_inj.mp h').symm
      subst hu
      rw [lookupS_upsert_self]
    · rw [lookupS_upsert_ne code c url s.db.code_to_url hc] at h'
      have hu : u ≠ url := by
        intro heq
        subst heq
        have := hInv.inv_c2u c u h'
        rw [hurl_fresh] at this
        exact Option.noConfusion this
      rw [lookupS_upsert_ne url u code s.db.url_to_code hu]
      exact hInv.inv_c2u c u h'
  · intro u c h
    have h' : lookupS u (upsert url code s.db.url_to_code) = some c := h
    show lookupS c (upsert code url s.db.code_to_url) = some u
    by_cases hu : u = url
    · subst hu
      rw [lookupS_upsert_self] at h'
      have hc : c = code := (Option.some_inj.mp h').symm
      subst hc
      rw [lookupS_upsert_self]
    · rw [lookupS_upsert_ne url u code s.db.url_to_code hu] at h'
      have hc : c ≠ code := by
        intro heq
        subst heq
        have := hInv.inv_u2c u c h'
        rw [hcode_fresh] at this
        exact Option.noConfusion this
      rw [lookupS_upsert_ne code c url s.db.code_to_url hc]
      exact hInv.inv_u2c u c h'
  · intro c u h
    have h' : lookupS c (upsert code url s.db.code_to_url) = some u := h
    by_cases hc : c = code
    · subst hc
      rw [lookupS_upsert_self] at h'
      have hu : u = url := (Option.some_inj.mp h').symm
      subst hu
      exact hurl_valid
    · rw [lookupS_upsert_ne code c url s.db.code_to_url hc] at h'
      exact hInv.url_valid c u h'
  · intro u c h
    have h' : lookupS u (upsert url code s.db.url_to_code) = some c := h
    by_cases hu : u = url
    · subst hu
      rw [lookupS_upsert_self] at h'
      have hc : c = code := (Option.some_inj.mp h').symm
      subst hc
      exact hcode_ne
    · rw [lookupS_upsert_ne url u code s.db.url_to_code hu] at h'
      exact hInv.code_ne u c h'
  · intro k v h
    have h' : (k, v) ∈ (LRUCache.put code url s.cache).items := h
    show lookupS k (upsert code url s.db.code_to_url) = some v
    rcases LRUCache.put_items_mem (k, v) h' with heq | ⟨hold, hne⟩
    · have hk : k = code := congrArg Prod.fst heq
      have hv : v = url := congrArg Prod.snd heq
      subst hk
      subst hv
      rw [lookupS_upsert_self]
    · rw [lookupS_upsert_ne code k url s.db.code_to_url hne]
      exact hInv.cache_sub k v hold

theorem create_inv (now : Nat) (s : URLShortener) (url : String) (cc : Option String)
    (ed : Option Nat) (hInv : Inv s) :
    Inv (URLShortener.create_short_url now s url cc ed).2 := by
  cases hv : is_valid_url url with
  | false =>
    rw [URLShortener.create_invalid now s cc ed hv]
    exact hInv
  | true =>
    cases he : truthyS (s.db.get_code url) with
    | some code =>
      rw [URLShortener.create_existing now s cc ed hv he]
      exact hInv
    | none =>
      have hurl_fresh : lookupS url s.db.url_to_code = none := inv_url_lookup_none hInv he
      cases hcc : truthyS cc with
      | some c =>
        have hcne : c ≠ "" := ((truthyS_some_iff cc c).mp hcc).2
        cases hok : is_valid_code c with
        | false =>
          rw [URLShortener.create_custom_invalid now s cc ed hv he hcc hok]
          exact hInv
        | true =>
          cases hinuse : pyTruthy (s.db.get_url c) with
          | true =>
            rw [URLShortener.create_custom_taken now s cc ed hv he hcc hok hinuse]
            exact hInv
          | false =>
            rw [URLShortener.create_custom_free now s cc ed hv he hcc hok hinuse]
            exact finalize_inv now s c url ed hInv hcne
              (inv_code_lookup_none hInv hinuse) hurl_fresh hv
      | none =>
        rw [URLShortener.create_generated now s cc ed hv he hcc]
        obtain ⟨g1, g2, -, g4, g5, -⟩ := URLShortener.generate_code_spec s.db
        have hInv' : Inv ⟨(URLShortener.generate_code s.db).2, s.cache⟩ :=
          inv_of_sub s _ g4 g5 (fun q hq => hq) hInv
        have hfresh : lookupS (URLShortener.generate_code s.db).1
            (URLShortener.generate_code s.db).2.code_to_url = none := by
          rw [g5]
          exact inv_code_lookup_none hInv g1
        have hufresh : lookupS url (URLShortener.generate_code s.db).2.url_to_code = none := by
          rw [g4]
          exact hurl_fresh
        exact finalize_inv now ⟨(URLShortener.generate_code s.db).2, s.cache⟩
          (URLShortener.generate_code s.db).1 url ed hInv'
          (by rw [g2]; exact mkCode_ne_empty _) hfresh hufresh hv

theorem resolve_inv (now : Nat) (s s' : URLShortener) (code : String) (r : Bool × String)
    (hInv : Inv s) (h : URLShortener.get_long_url now s code = some (r, s')) : Inv s' := by
  obtain ⟨i1, i2, -⟩ := URLDatabase.increment_visits_frame code s.db
  cases hg : truthyS (LRUCache.get code s.cache).1 with
  | some url =>
    rw [URLShortener.resolve_hit now s hg] at h
    have hx := Option.some_inj.mp h
    have hs : s' = ⟨s.db.increment_visits code, (LRUCache.get code s.cache).2⟩ :=
      (congrArg Prod.snd hx).symm
    subst hs
    exact inv_of_sub s _ i1 i2 (LRUCache.get_items_sub code s.cache) hInv
  | none =>
    cases hu : truthyS (s.db.get_url code) with
    | none =>
      rw [URLShortener.resolve_notfound now s hg hu] at h
      have hx := Option.some_inj.mp h
      have hs : s' = ⟨s.db, (LRUCache.get code s.cache).2⟩ := (congrArg Prod.snd hx).symm
      subst hs
      exact inv_of_sub s _ rfl rfl (LRUCache.get_items_sub code s.cache) hInv
    | some url =>
      cases hst : s.db.get_stats code with
      | none =>
        rw [URLShortener.resolve_nostats now s hg hu hst] at h
        exact Option.noConfusion h
      | some st =>
        rw [URLShortener.resolve_db now s hg hu hst] at h
        split at h
        · have hx := Option.some_inj.mp h
          have hs : s' = ⟨s.db, (LRUCache.get code s.cache).2⟩ := (congrArg Prod.snd hx).symm
          subst hs
          exact inv_of_sub s _ rfl rfl (LRUCache.get_items_sub code s.cache) hInv
        · have hx := Option.some_inj.mp h
          have hs : s' = ⟨s.db.increment_visits code,
              LRUCache.put code url (LRUCache.get code s.cache).2⟩ :=
            (congrArg Prod.snd hx).symm
          subst hs
          constructor
          · intro c u hcu
            rw [i2] at hcu
            rw [i1]
            exact hInv.inv_c2u c u hcu
          · intro u c hcu
            rw [i1] at hcu
            rw [i2]
            exact hInv.inv_u2c u c hcu
          · intro c u hcu
            rw [i2] at hcu
            exact hInv.url_valid c u hcu
          · intro u c hcu
            rw [i1] at hcu
            exact hInv.code_ne u c hcu
          · intro k v hm
            show lookupS k (s.db.increment_visits code).code_to_url = some v
            rw [i2]
            rcases LRUCache.put_items_mem (k, v) hm with heq | ⟨hold, hne⟩
            · have hk : k = code := congrArg Prod.fst heq
              have hv : v = url := congrArg Prod.snd heq
              subst hk
              subst hv
              exact ((truthyS_some_iff _ _).mp hu).1
            · exact hInv.cache_sub k v
                (LRUCache.get_items_sub code s.cache (k, v) hold)

theorem reachable_inv {s : URLShortener} (h : Reachable s) : Inv s := by
  induction h with
  | init cap =>
    constructor
    · intro c u h
      exact Option.noConfusion h
    · intro u c h
      exact Option.noConfusion h
    · intro c u h
      exact Option.noConfusion h
    · intro u c h
      exact Option.noConfusion h
    · intro k v h
      exact absurd h (List.not_mem_nil _)
  | create now url cc ed hs ih =>
    exact create_inv now _ url cc ed ih
  | resolve now code r hs hres ih =>
    exact resolve_inv now _ _ code r ih hres

end UrlShort

namespace UrlShort

namespace URLShortener

theorem finalize_counter (now : Nat) (s : URLShortener) (code url : String)
    (ed : Option Nat) : (finalize now s code url ed).2.db.counter = s.db.counter := by
  unfold finalize URLDatabase.store
  cases ed with
  | none => rfl
  | some d => by_cases hd : d = 0 <;> simp [hd]

theorem create_counter_mono (now : Nat) (s : URLShortener) (url : String)
    (cc : Option String) (ed : Option Nat) :
    s.db.counter ≤ (create_short_url now s url cc ed).2.db.counter := by
  cases hv : is_valid_url url with
  | false =>
    rw [create_invalid now s cc ed hv]
  | true =>
    cases he : truthyS (s.db.get_code url) with
    | some code =>
      rw [create_existing now s cc ed hv he]
    | none =>
      cases hcc : truthyS cc with
      | some c =>
        cases hok : is_valid_code c with
        | false =>
          rw [create_custom_invalid now s cc ed hv he hcc hok]
        | true =>
          cases hinuse : pyTruthy (s.db.get_url c) with
          | true =>
            rw [create_custom_taken now s cc ed hv he hcc hok hinuse]
          | false =>
            rw [create_custom_free now s cc ed hv he hcc hok hinuse,
              finalize_counter now s c url ed]
      | none =>
        rw [create_generated now s cc ed hv he hcc,
          finalize_counter now ⟨(generate_code s.db).2, s.cache⟩ (generate_code s.db).1 url ed]
        exact Nat.le_of_lt (generate_code_spec s.db).2.2.1

theorem resolve_counter_eq (now : Nat) (s : URLShortener) (code : String)
    (r : (Bool × String) × URLShortener)
    (h : get_long_url now s code = some r) : r.2.db.counter = s.db.counter := by
  obtain ⟨-, -, i3⟩ := URLDatabase.increment_visits_frame code s.db
  cases hg : truthyS (LRUCache.get code s.cache).1 with
  | some url =>
    rw [resolve_hit now s hg] at h
    rw [← Option.some_inj.mp h]
    exact i3
  | none =>
    cases hu : truthyS (s.db.get_url code) with
    | none =>
      rw [resolve_notfound now s hg hu] at h
      rw [← Option.some_inj.mp h]
    | some url =>
      cases hst : s.db.get_stats code with
      | none =>
        rw [resolve_nostats now s hg hu hst] at h
        exact Option.noConfusion h
      | some st =>
        rw [resolve_db now s hg hu hst] at h
        split at h
        · rw [← Option.some_inj.mp h]
        · rw [← Option.some_inj.mp h]
          exact i3

end URLShortener

end UrlShort

namespace UrlShort

/-! ## Concrete reachable states used by witnesses -/

/-- One URL shortened without options on a fresh instance of size 5. -/
def s_demo : URLShortener :=
  (URLShortener.create_short_url 0 (URLShortener.init 5) "https://example.com/a" none none).2

theorem s_demo_reachable : Reachable s_demo :=
  Reachable.create 0 "https://example.com/a" none none (Reachable.init 5)

/-- `s_demo` extended with a second URL under the custom code `ABCDEFG`. -/
def s_custom : URLShortener :=
  (URLShortener.create_short_url 0 s_demo "https://example.com/b" (some "ABCDEFG") none).2

theorem s_custom_reachable : Reachable s_custom :=
  Reachable.create 0 "https://example.com/b" (some "ABCDEFG") none s_demo_reachable

/-- One URL shortened with a one-day expiry on a fresh instance of size 1000;
the code is still in the cache. -/
def s_exp : URLShortener :=
  (URLShortener.create_short_url 0 (URLShortener.init 1000) "https://example.com/a"
    none (some 1)).2

theorem s_exp_reachable : Reachable s_exp :=
  Reachable.create 0 "https://example.com/a" none (some 1) (Reachable.init 1000)

/-- Capacity-1 instance: the first (expiring) code has been evicted from the
cache by the second creation, so resolving it goes to the store. -/
def s_evict : URLShortener :=
  (URLShortener.create_short_url 0
    ((URLShortener.create_short_url 0 (URLShortener.init 1) "https://example.com/a"
      none (some 1)).2)
    "https://example.com/b" none none).2

/-! ## The claims -/

/-- C1: idempotence of creation — if a long URL already has an assigned code in
a reachable store, any later `create_short_url` call with that URL (with any
custom code and any expiry) succeeds with the existing code and returns the
state completely unchanged. -/
theorem c1_create_idempotent (s : URLShortener) (hr : Reachable s) (long_url code : String)
    (h : lookupS long_url s.db.url_to_code = some code)
    (now : Nat) (custom_code : Option String) (expiry_days : Option Nat) :
    URLShortener.create_short_url now s long_url custom_code expiry_days =
      ((true, code), s) := by
  have hInv := reachable_inv hr
  have hcne : code ≠ "" := hInv.code_ne long_url code h
  have hvalid : is_valid_url long_url = true :=
    hInv.url_valid code long_url (hInv.inv_u2c long_url code h)
  have he : truthyS (s.db.get_code long_url) = some code := by
    show truthyS (lookupS long_url s.db.url_to_code) = some code
    rw [h]
    exact truthyS_none code hcne
  exact URLShortener.create_existing now s custom_code expiry_days hvalid he

theorem c1_witness :
    URLShortener.create_short_url 99 s_demo "https://example.com/a"
      (some "ABCDEFG") (some 30) = ((true, "0000001"), s_demo) :=
  c1_create_idempotent s_demo s_demo_reachable "https://example.com/a" "0000001"
    (by decide) 99 (some "ABCDEFG") (some 30)

/-- C6: custom-code collision — when a (valid, not yet shortened) URL is
shortened under a custom code that is already bound, the call fails with the
`CodeInUse` message and the returned state is literally the input state, so
store mappings, stats, cache and sequence counter are all unchanged. -/
theorem c6_custom_code_collision (now : Nat) (s : URLShortener) (long_url cc : String)
    (expiry_days : Option Nat)
    (hvu : is_valid_url long_url = true)
    (hnew : lookupS long_url s.db.url_to_code = none)
    (hccne : cc ≠ "")
    (hvc : is_valid_code cc = true)
    (hbound : pyTruthy (s.db.get_url cc) = true) :
    URLShortener.create_short_url now s long_url (some cc) expiry_days =
      ((false, "Custom code already in use"), s) := by
  have he : truthyS (s.db.get_code long_url) = none := by
    show truthyS (lookupS long_url s.db.url_to_code) = none
    rw [hnew]
    rfl
  exact URLShortener.create_custom_taken now s (some cc) expiry_days hvu he
    (truthyS_none cc hccne) hvc hbound

theorem c6_witness :
    URLShortener.create_short_url 7 s_custom "https://example.com/c"
      (some "ABCDEFG") (some 3) = ((false, "Custom code already in use"), s_custom) :=
  c6_custom_code_collision 7 s_custom "https://example.com/c" "ABCDEFG" (some 3)
    (by decide) (by decide) (by decide) (by decide) (by decide)

/-- C7: uniqueness invariant — in every reachable state the code-to-URL and
URL-to-code maps are mutual inverses, hence no two stored records share a code
and no two share a URL. -/
theorem c7_mutual_inverse (s : URLShortener) (hr : Reachable s) :
    (∀ code url, lookupS code s.db.code_to_url = some url ↔
      lookupS url s.db.url_to_code = some code) ∧
    (∀ c₁ c₂ u, lookupS c₁ s.db.code_to_url = some u →
      lookupS c₂ s.db.code_to_url = some u → c₁ = c₂) ∧
    (∀ u₁ u₂ c, lookupS u₁ s.db.url_to_code = some c →
      lookupS u₂ s.db.url_to_code = some c → u₁ = u₂) := by
  have hInv := reachable_inv hr
  refine ⟨fun code url => ⟨hInv.inv_c2u code url, hInv.inv_u2c url code⟩, ?_, ?_⟩
  · intro c₁ c₂ u h₁ h₂
    have e₁ := hInv.inv_c2u c₁ u h₁
    have e₂ := hInv.inv_c2u c₂ u h₂
    rw [e₁] at e₂
    exact Option.some_inj.mp e₂
  · intro u₁ u₂ c h₁ h₂
    have e₁ := hInv.inv_u2c u₁ c h₁
    have e₂ := hInv.inv_u2c u₂ c h₂
    rw [e₁] at e₂
    exact Option.some_inj.mp e₂

theorem c7_witness :
    lookupS "https://example.com/a" s_demo.db.url_to_code = some "0000001" :=
  ((c7_mutual_inverse s_demo s_demo_reachable).1 "0000001" "https://example.com/a").mp
    (by decide)

/-- C8: cache–store coherence — in every reachable state, every key-value pair
held by the LRU cache is also present in the store's code-to-URL map with the
same value. -/
theorem c8_cache_store_coherence (s : URLShortener) (hr : Reachable s) :
    ∀ k v, (k, v) ∈ s.cache.items → lookupS k s.db.code_to_url = some v :=
  fun k v h => (reachable_inv hr).cache_sub k v h

theorem c8_witness :
    lookupS "0000001" s_demo.db.code_to_url = some "https://example.com/a" :=
  c8_cache_store_coherence s_demo s_demo_reachable "0000001" "https://example.com/a"
    (by decide)

/-- C9: an LRU `get` on an absent key returns absent and leaves the entire
cache state (key set, values and recency order) unchanged. -/
theorem c9_lru_get_absent (c : LRUCache) (k : String)
    (h : k ∉ c.items.map Prod.fst) :
    LRUCache.get k c = (none, c) :=
  LRUCache.get_of_not_mem h

theorem c9_witness :
    LRUCache.get "zzzzzzz" ⟨2, [("0000001", "https://example.com/a")]⟩ =
      (none, ⟨2, [("0000001", "https://example.com/a")]⟩) :=
  c9_lru_get_absent ⟨2, [("0000001", "https://example.com/a")]⟩ "zzzzzzz" (by decide)

/-- C10: an empty-string custom code is falsy in Python, so `create_short_url`
with `custom_code = ""` behaves exactly like a call without a custom code —
in particular it never fails with the `InvalidCode` error. -/
theorem c10_empty_custom_code (now : Nat) (s : URLShortener) (long_url : String)
    (expiry_days : Option Nat) :
    URLShortener.create_short_url now s long_url (some "") expiry_days =
      URLShortener.create_short_url now s long_url none expiry_days ∧
    (URLShortener.create_short_url now s long_url (some "") expiry_days).1 ≠
      (false, "Invalid custom code") := by
  have hcc : truthyS (some "") = none := rfl
  constructor
  · rfl
  · cases hv : is_valid_url long_url with
    | false =>
      rw [URLShortener.create_invalid now s (some "") expiry_days hv]
      intro hcon
      have hcon' : ((false : Bool), "Invalid URL format") =
          ((false : Bool), "Invalid custom code") := hcon
      have h2 : "Invalid URL format" = "Invalid custom code" := congrArg Prod.snd hcon'
      exact absurd h2 (by decide)
    | true =>
      cases he : truthyS (s.db.get_code long_url) with
      | some code =>
        rw [URLShortener.create_existing now s (some "") expiry_days hv he]
        intro hcon
        exact Bool.noConfusion (congrArg Prod.fst hcon)
      | none =>
        rw [URLShortener.create_generated now s (some "") expiry_days hv he hcc]
        intro hcon
        exact Bool.noConfusion (congrArg Prod.fst hcon)

end UrlShort

namespace UrlShort

/-- C2 (amended): for a record with expiry `created + d*86400`, a resolve that
is not served from the cache succeeds (incrementing visits and writing the
cache) whenever `now ≤ created + d*86400` — including at the expiry instant
itself — and fails with `Expired` exactly when `now` is strictly past that
instant, in which case the whole state is returned unchanged (the record stays
in the store and nothing is reinserted into the cache).  The source compares
with a strict `expires_at < now`, so the failure boundary is one second later
than the claim's "at or after". -/
theorem c2_expiry_boundary (now created d vc : Nat) (hd : 1 ≤ d)
    (s : URLShortener) (code url : String)
    (hmiss : code ∉ s.cache.items.map Prod.fst)
    (hurl : lookupS code s.db.code_to_url = some url)
    (hune : url ≠ "")
    (hst : lookupS code s.db.stats = some ⟨created, some (created + d * 86400), vc⟩) :
    (now ≤ created + d * 86400 →
      URLShortener.get_long_url now s code =
        some ((true, url),
          ⟨s.db.increment_visits code, LRUCache.put code url s.cache⟩)) ∧
    (created + d * 86400 < now →
      URLShortener.get_long_url now s code = some ((false, "URL has expired"), s)) := by
  have hgot : LRUCache.get code s.cache = (none, s.cache) := LRUCache.get_of_not_mem hmiss
  have h1 : truthyS (LRUCache.get code s.cache).1 = none := by
    rw [hgot]
    rfl
  have h2 : truthyS (s.db.get_url code) = some url := by
    show truthyS (lookupS code s.db.code_to_url) = some url
    rw [hurl]
    exact truthyS_none url hune
  have h3 : s.db.get_stats code = some ⟨created, some (created + d * 86400), vc⟩ := hst
  have hdb := URLShortener.resolve_db now s h1 h2 h3
  rw [hgot] at hdb
  dsimp only at hdb
  constructor
  · intro hle
    have hcond : (!(decide (created + d * 86400 = 0)) &&
        decide (created + d * 86400 < now)) = false := by
      rw [decide_eq_false (show ¬ created + d * 86400 < now by omega)]
      exact Bool.and_false _
    have hne : ¬ ((!(decide (created + d * 86400 = 0)) &&
        decide (created + d * 86400 < now)) = true) := by
      rw [hcond]
      exact Bool.false_ne_true
    rw [hdb, if_neg hne]
  · intro hlt
    have hcond : (!(decide (created + d * 86400 = 0)) &&
        decide (created + d * 86400 < now)) = true := by
      rw [decide_eq_false (show ¬ created + d * 86400 = 0 by omega), decide_eq_true hlt]
      rfl
    rw [hdb, if_pos hcond]

/-- C2 counterexample: in the reachable state `s_evict` the code `0000001` was
created at time 0 with a one-day expiry (so `expires_at = 86400`) and is no
longer cached, yet resolving it at exactly time 86400 — "at" the expiry
instant, where the claim demands `Expired` — succeeds. -/
theorem c2_counterexample :
    lookupS "0000001" s_evict.db.stats = some ⟨0, some 86400, 0⟩ ∧
    "0000001" ∉ s_evict.cache.items.map Prod.fst ∧
    (URLShortener.get_long_url 86400 s_evict "0000001").map Prod.fst =
      some (true, "https://example.com/a") := by
  refine ⟨by decide, by decide, by decide⟩

theorem c2_witness :
    URLShortener.get_long_url 86401 s_evict "0000001" =
      some ((false, "URL has expired"), s_evict) :=
  (c2_expiry_boundary 86401 0 1 0 (by decide) s_evict "0000001" "https://example.com/a"
    (by decide) (by decide) (by decide) (by decide)).2 (by decide)

/-- C5: a cache hit on resolve returns the cached URL as success and increments
the authoritative visit counter without ever consulting the stats record or the
clock — no expiry hypothesis appears; moreover, in the concrete reachable state
`s_exp` the code `0000001` whose expiry (86400) is long past still resolves
successfully at time 999999999 because it is still cached. -/
theorem c5_cache_hit_skips_expiry :
    (∀ (now : Nat) (s : URLShortener) (code url : String),
      truthyS (LRUCache.get code s.cache).1 = some url →
      URLShortener.get_long_url now s code =
        some ((true, url),
          ⟨s.db.increment_visits code, (LRUCache.get code s.cache).2⟩)) ∧
    (Reachable s_exp ∧
     lookupS "0000001" s_exp.db.stats = some ⟨0, some 86400, 0⟩ ∧
     86400 < 999999999 ∧
     (URLShortener.get_long_url 999999999 s_exp "0000001").map Prod.fst =
       some (true, "https://example.com/a")) := by
  constructor
  · intro now s code url h
    exact URLShortener.resolve_hit now s h
  · exact ⟨s_exp_reachable, by decide, by decide, by decide⟩

theorem c5_witness :
    URLShortener.get_long_url 999999999 s_exp "0000001" =
      some ((true, "https://example.com/a"),
        ⟨s_exp.db.increment_visits "0000001", (LRUCache.get "0000001" s_exp.cache).2⟩) :=
  c5_cache_hit_skips_expiry.1 999999999 s_exp "0000001" "https://example.com/a" (by decide)

/-- C4: LRU correctness — for every capacity at least 1: after any workload the
cached keys are exactly the `cap` most-recently-touched keys (touches being
put calls and get hits), in recency order; when more than `cap` distinct keys
have been touched exactly `cap` keys remain; the size never exceeds the
capacity; and a put of a new key into a full cache evicts exactly the single
least-recently-used key (the last of the recency list). -/
theorem c4_lru_eviction (cap : Nat) (hcap : 1 ≤ cap) :
    (∀ ops : List LOp,
      (lruRun cap ops).items.map Prod.fst = (mruList (lruTouches cap ops)).take cap) ∧
    (∀ ops : List LOp, cap < (mruList (lruTouches cap ops)).length →
      ((lruRun cap ops).items.map Prod.fst).length = cap) ∧
    (∀ ops : List LOp, (lruRun cap ops).items.length ≤ cap) ∧
    (∀ (c : LRUCache) (k v : String), c.capacity = cap →
      k ∉ c.items.map Prod.fst → c.items.length = cap →
      (LRUCache.put k v c).items.map Prod.fst = k :: (c.items.map Prod.fst).dropLast) := by
  refine ⟨lruRun_keys cap hcap, ?_, lruRun_length_le cap hcap, ?_⟩
  · intro ops hlen
    rw [lruRun_keys cap hcap ops, List.length_take]
    omega
  · intro c k v hc hk hlen
    rw [LRUCache.put_eq, LRUCache.eraseKey_eq_self hk,
      if_pos (by rw [hc, List.length_cons]; omega)]
    show ((k, v) :: c.items).dropLast.map Prod.fst = _
    rw [List.map_dropLast, List.map_cons]
    have hne : c.items.map Prod.fst ≠ [] := by
      intro hnil
      have := congrArg List.length hnil
      rw [List.length_map] at this
      simp only [List.length_nil] at this
      omega
    rw [List.dropLast_cons_of_ne_nil hne]

theorem c4_witness :
    (lruRun 2 [LOp.put "a" "1", LOp.put "b" "2", LOp.get "a",
      LOp.put "c" "3"]).items.map Prod.fst =
      (mruList (lruTouches 2 [LOp.put "a" "1", LOp.put "b" "2", LOp.get "a",
        LOp.put "c" "3"])).take 2 :=
  (c4_lru_eviction 2 (by decide)).1
    [LOp.put "a" "1", LOp.put "b" "2", LOp.get "a", LOp.put "c" "3"]

end UrlShort

namespace UrlShort

/-- C3 (amended): the generation path always returns the base-62 encoding of
the final counter value, left-padded with the alphabet's first character `'0'`,
so codes are made only of alphabet characters and have length at least 7, with
length exactly 7 whenever the sequence number is below `62^7`; within a call
the attempted sequence numbers are the consecutive fresh values above the old
counter (hence pairwise distinct), and across a store's lifetime the counter
never decreases, so no sequence number is ever drawn twice. -/
theorem c3_generated_code_format (db : URLDatabase) :
    ((URLShortener.generate_code db).1 =
        mkCode (URLShortener.generate_code db).2.counter ∧
      db.counter < (URLShortener.generate_code db).2.counter) ∧
    (7 ≤ (URLShortener.generate_code db).1.length ∧
      (∀ ch ∈ (URLShortener.generate_code db).1.data, ch ∈ charsetL) ∧
      ((URLShortener.generate_code db).2.counter < 62 ^ 7 →
        (URLShortener.generate_code db).1.length = 7)) ∧
    ((URLShortener.generate_code db).1.data =
      List.replicate
          (7 - (encodeBase62 (URLShortener.generate_code db).2.counter).length) '0' ++
        (encodeBase62 (URLShortener.generate_code db).2.counter).data) ∧
    (URLShortener.genNums (db.code_to_url.length + 1) db =
        List.range' (db.counter + 1)
          ((URLShortener.generate_code db).2.counter - db.counter) ∧
      (URLShortener.genNums (db.code_to_url.length + 1) db).Nodup) ∧
    (∀ (now : Nat) (s : URLShortener) (u : String) (cc : Option String)
        (ed : Option Nat),
      s.db.counter ≤ ((URLShortener.create_short_url now s u cc ed).2).db.counter) ∧
    (∀ (now : Nat) (s : URLShortener) (code : String)
        (r : (Bool × String) × URLShortener),
      URLShortener.get_long_url now s code = some r → r.2.db.counter = s.db.counter) := by
  obtain ⟨-, g2, g3, -, -, -⟩ := URLShortener.generate_code_spec db
  have hpos : 1 ≤ (URLShortener.generate_code db).2.counter := by omega
  refine ⟨⟨g2, g3⟩, ⟨?_, ?_, ?_⟩, ?_, ⟨?_, ?_⟩, ?_, ?_⟩
  · rw [g2]
    exact mkCode_length_ge _
  · intro ch hch
    rw [g2] at hch
    exact mkCode_chars _ ch hch
  · intro hlt
    rw [g2]
    exact mkCode_length_eq_seven hpos hlt
  · rw [g2]
    rfl
  · exact URLShortener.genNums_spec (db.code_to_url.length + 1) db
  · rw [URLShortener.genNums_spec (db.code_to_url.length + 1) db]
    exact List.nodup_range' _ _
  · exact fun now s u cc ed => URLShortener.create_counter_mono now s u cc ed
  · exact fun now s code r h => URLShortener.resolve_counter_eq now s code r h

/-- C3 counterexample: when the sequence counter has reached `62^7 - 1`, the
next generated code is the 8-character string `10000000`, not a 7-character
code, refuting the claim that every generated code has exactly the fixed
length 7 for every value the counter can take. -/
theorem c3_counterexample :
    (URLShortener.generate_code ⟨[], [], [], 62 ^ 7 - 1⟩).1.length = 8 ∧
    (URLShortener.generate_code ⟨[], [], [], 62 ^ 7 - 1⟩).1 = "10000000" := by
  refine ⟨by decide, by decide⟩

theorem c3_witness :
    (URLShortener.generate_code ⟨[], [], [], 0⟩).1.length = 7 :=
  (c3_generated_code_format ⟨[], [], [], 0⟩).2.1.2.2 (by decide)

end UrlShort
